import Mathlib

/-!
Shallow embedding of `src/lib.ts` (kaid/stupid_iterator).

JavaScript semantics notes governing the model:
* A JS iterator is modelled by an endless pull function `source : Nat → Option T`
  together with a call counter `cursor`; the `(i+1)`-th call to `next()` returns
  `{value := a}` (modelled `some a`) when `source i = some a` and `{done := true}`
  (whose `value` is `undefined`) when `source i = none`.  Array iterators and the
  naturals producer used in the claims satisfy this shape.
* `undefined` is modelled as `none`; the `LazyBuffer` cache holds `Option T`
  because `prefill` (through `Take`) can push `undefined` into the cache.
* JS numbers appearing in the index arithmetic are integers here; subtractions
  such as `idx + n - k` are computed in `Int`, exactly as JS would.
-/

namespace StupidIter

/-- State of a JS iterator over a pull source (see module docstring). -/
structure IterState (T : Type) where
  source : Nat → Option T
  cursor : Nat

/-- `iterator.next()`: returns `{done?, value}` (as `Option T`) and the advanced
iterator. -/
def IterState.next {T} (it : IterState T) : Option T × IterState T :=
  (it.source it.cursor, { it with cursor := it.cursor + 1 })

/-- `collect(new Take(iterator, num))`: `Take`'s generator runs
`for _ of Range(0, num) { yield this.iter.next().value }` — `num` calls to
`next()`, collecting each `value` (which is `undefined`, i.e. `none`, whenever
the iterator reported done). -/
def takeCollect {T} : IterState T → Nat → List (Option T) × IterState T
  | it, 0 => ([], it)
  | it, num + 1 =>
    let p := it.next
    let r := takeCollect p.2 num
    (p.1 :: r.1, r.2)

/-- `class LazyBuffer<T>`: `iterator` is the wrapped source iterator, `done` the
`private done` flag, `buffer` the cache (entries are JS values, so `Option T`). -/
structure LazyBuffer (T : Type) where
  iterator : IterState T
  done : Bool
  buffer : List (Option T)

/-- `new LazyBuffer(iterable)`: empty cache, iterator at the start of `source`. -/
def LazyBuffer.make {T} (source : Nat → Option T) : LazyBuffer T :=
  { iterator := { source := source, cursor := 0 }, done := false, buffer := [] }

/-- `get length()`: current cache size. -/
def LazyBuffer.length {T} (b : LazyBuffer T) : Nat := b.buffer.length

/-- `get(idx)`: `this.buffer[idx]` — the cached JS value at `idx`, which is
`undefined` (`none`) when `idx` is out of range. -/
def LazyBuffer.get {T} (b : LazyBuffer T) (idx : Nat) : Option T :=
  b.buffer.getD idx none

/-- `fetch()`: see `src/lib.ts` lines 63–77. -/
def LazyBuffer.fetch {T} (b : LazyBuffer T) : LazyBuffer T × Bool :=
  if b.done then (b, false)
  else
    let p := b.iterator.next
    match p.1 with
    | none => ({ b with iterator := p.2, done := true }, false)
    | some v => ({ b with iterator := p.2, buffer := b.buffer ++ [some v] }, true)

/-- `prefill(k)`: see `src/lib.ts` lines 79–88.  `k` is a JS number, so `Int`
(the `Combinations` constructor forwards its `k`, which may be negative).
When the guard holds it appends `collect(new Take(this.iterator, delta))` with
`delta = k - bufferLength`, then sets `done = this.length < k`. -/
def LazyBuffer.prefill {T} (b : LazyBuffer T) (k : Int) : LazyBuffer T :=
  if ¬ b.done ∧ (b.length : Int) < k then
    let delta := (k - (b.length : Int)).toNat
    let r := takeCollect b.iterator delta
    let buf' := b.buffer ++ r.1
    { iterator := r.2, done := decide ((buf'.length : Int) < k), buffer := buf' }
  else b

/-- `class Combinations<T>`: `first` is the `private first` flag, `pool` the
owned `LazyBuffer`, `indices` the current index tuple.  The indices produced by
`Range(0,k)` and maintained by the advance loop are non-negative JS integers,
so they are modelled as `Nat`. -/
structure Combinations (T : Type) where
  first : Bool
  pool : LazyBuffer T
  indices : List Nat

/-- `new Combinations(iterable, k)`: `indices = collect(new Range(0, k))`
(`Range(0,k)` yields `0,…,k-1` for `k > 0` and nothing otherwise, i.e.
`List.range k.toNat`), then the fresh pool is prefilled to `k`. -/
def Combinations.make {T} (source : Nat → Option T) (k : Int) : Combinations T :=
  { first := true
    pool := (LazyBuffer.make source).prefill k
    indices := List.range k.toNat }

/-- `get k()`: `this.indices.length`. -/
def Combinations.k {T} (c : Combinations T) : Nat := c.indices.length

/-- `get n()`: `this.pool.length`. -/
def Combinations.n {T} (c : Combinations T) : Nat := c.pool.length

/-- The inner `while` scan of the advance step (`src/lib.ts` lines 131–137):
starting from `indicesIdx = k - 1`, walk left while
`indices[indicesIdx] === indicesIdx + n - k`; terminate the generator (`none`)
upon reaching index 0 still pinned, otherwise stop at the first unpinned index. -/
def scanIdx (inds : List Nat) (n kk : Nat) : Nat → Option Nat
  | 0 => if (inds.getD 0 0 : Int) = (0 : Int) + n - kk then none else some 0
  | idx + 1 =>
    if (inds.getD (idx + 1) 0 : Int) = ((idx : Int) + 1) + n - kk then
      scanIdx inds n kk idx
    else some (idx + 1)

/-- The tail-reset loop (`src/lib.ts` lines 141–143):
`for j of Range(start, k) { indices[j] = indices[j-1] + 1 }`
(`Range(start,k)` yields `start,…,k-1`, i.e. `List.range' start (k - start)`). -/
def resetTail (inds : List Nat) (start kk : Nat) : List Nat :=
  (List.range' start (kk - start)).foldl
    (fun a j => a.set j (a.getD (j - 1) 0 + 1)) inds

/-- One iteration of the generator's `while (true)` loop
(`src/lib.ts` lines 115–147).  Result `(true, c')` means the loop body reached
`yield` and the object state is now `c'` (the emitted combination is
`c'.indices` mapped through `c'.pool.get`); `(false, c')` means the generator
returned, leaving the object in state `c'`. -/
def Combinations.step {T} (c : Combinations T) : Bool × Combinations T :=
  if c.first then
    if c.k > c.n then (false, c)
    else (true, { c with first := false })
  else if c.n = 0 then (false, c)
  else
    let idx0 := c.k - 1
    let c1 :=
      if (c.indices.getD idx0 0 : Int) = (c.n : Int) - 1 then
        { c with pool := (c.pool.fetch).1 }
      else c
    match scanIdx c1.indices c1.n c1.k idx0 with
    | none => (false, c1)
    | some i =>
      let inds1 := c1.indices.set i (c1.indices.getD i 0 + 1)
      (true, { c1 with indices := resetTail inds1 (i + 1) c1.k })

/-- The combination emitted at a yield point:
`this.indices.map(bufferIdx => this.pool.get(bufferIdx))`. -/
def Combinations.emit {T} (c : Combinations T) : List (Option T) :=
  c.indices.map fun i => c.pool.get i

/-- `private reset(k)` (`src/lib.ts` lines 150–154). -/
def Combinations.reset {T} (c : Combinations T) (k : Nat) : Combinations T :=
  { first := true
    pool := c.pool.prefill (k : Int)
    indices := List.range k }

/-- Entering `[Symbol.iterator]()`: `if (!this.first) this.reset(this.k)`. -/
def Combinations.beginIter {T} (c : Combinations T) : Combinations T :=
  if ¬ c.first then c.reset c.k else c

/-- Driving the generator `fuel` times from state `c`: the list of states at
each yield point, and the object state when iteration stops (either the
generator returned, or the driver stopped pulling after `fuel` yields). -/
def Combinations.iterate {T} : Nat → Combinations T → List (Combinations T) × Combinations T
  | 0, c => ([], c)
  | fuel + 1, c =>
    match c.step with
    | (false, c') => ([], c')
    | (true, c') =>
      let r := Combinations.iterate fuel c'
      (c' :: r.1, r.2)

/-- One full use of the iterable: call `[Symbol.iterator]()` (performing the
reset when a previous traversal had started) and drive the generator. -/
def Combinations.traverse {T} (c : Combinations T) (fuel : Nat) :
    List (Combinations T) × Combinations T :=
  (c.beginIter).iterate fuel

/-- The index tuples emitted during one traversal with the given fuel. -/
def emissionsIdx {T} (fuel : Nat) (c : Combinations T) : List (List Nat) :=
  ((c.traverse fuel).1).map (·.indices)

/-- The element tuples emitted during one traversal with the given fuel. -/
def emissionsElems {T} (fuel : Nat) (c : Combinations T) : List (List (Option T)) :=
  ((c.traverse fuel).1).map Combinations.emit

/-- The source corresponding to the JS iterator of a finite array `l`. -/
def listSource {T} (l : List T) : Nat → Option T := fun i => l[i]?

/-- `new Combinations(l, k)` for a finite array `l` and a natural `k`. -/
def ofList {T} (l : List T) (k : Nat) : Combinations T :=
  Combinations.make (listSource l) (k : Int)

/-- The infinite producer of the naturals `0, 1, 2, …`. -/
def natsSource : Nat → Option Nat := fun i => some i

/-- The mutating operations of a `LazyBuffer` (`get` and `length` do not
mutate). -/
inductive BufOp where
  | fetchOp : BufOp
  | prefillOp : Int → BufOp

/-- Apply one buffer operation, keeping the resulting buffer state. -/
def applyOp {T} (b : LazyBuffer T) : BufOp → LazyBuffer T
  | BufOp.fetchOp => (b.fetch).1
  | BufOp.prefillOp k => b.prefill k

/-- Apply a sequence of buffer operations. -/
def applyOps {T} (b : LazyBuffer T) (ops : List BufOp) : LazyBuffer T :=
  ops.foldl applyOp b

/-- `consecFrom a k = [a, a+1, …, a+k-1]`. -/
def consecFrom : Nat → Nat → List Nat
  | _, 0 => []
  | a, k + 1 => a :: consecFrom (a + 1) k

/-- Position `j` of the tuple `c` is pinned at its maximal value `j + n - kk`
(stated without subtraction). -/
def pinned (n kk : Nat) (c : List Nat) (j : Nat) : Prop :=
  c.getD j 0 + kk = j + n

/-- The mathematical lexicographic successor of a combination drawn from
`{0, …, n-1}`: increment the rightmost unpinned entry and reset the entries
after it to consecutive values; `none` when every entry is pinned. -/
def mathSucc (n : Nat) : List Nat → Option (List Nat)
  | [] => none
  | a :: rest =>
    match mathSucc n rest with
    | some rest' => some (a :: rest')
    | none =>
      if a + (rest.length + 1) = n then none
      else some ((a + 1) :: consecFrom (a + 2) rest.length)

/-- All `kk`-element combinations (as sorted tuples) of the sorted list `l`,
in lexicographic order. -/
def combosOf : List Nat → Nat → List (List Nat)
  | _, 0 => [[]]
  | [], _ + 1 => []
  | a :: l, kk + 1 => (combosOf l kk).map (a :: ·) ++ combosOf l (kk + 1)

/-- `Finishes n c out`: starting from the combination `c`, repeatedly taking
`mathSucc n` visits exactly the combinations in `out` (starting with `c`
itself) and then terminates. -/
inductive Finishes (n : Nat) : List Nat → List (List Nat) → Prop
  | last {c : List Nat} : mathSucc n c = none → Finishes n c [c]
  | step {c c' : List Nat} {out : List (List Nat)} :
      mathSucc n c = some c' → Finishes n c' out → Finishes n c (c :: out)

/-- The pool after `m` elements of the finite source `l` have been pulled and
cached, the source not yet exhausted (growing phase). -/
def GPool {T} (l : List T) (m : Nat) : LazyBuffer T :=
  { iterator := { source := listSource l, cursor := m }
    done := false
    buffer := (l.take m).map some }

/-- The pool after the finite source `l` has been seen to be exhausted. -/
def FPool {T} (l : List T) : LazyBuffer T :=
  { iterator := { source := listSource l, cursor := l.length + 1 }
    done := true
    buffer := l.map some }

/-- The pool produced by the constructor's `prefill(kk)` when `kk` exceeds the
source's length: the cache is padded with `undefined` entries. -/
def PadPool {T} (l : List T) (kk : Nat) : LazyBuffer T :=
  { iterator := { source := listSource l, cursor := kk }
    done := false
    buffer := l.map some ++ List.replicate (kk - l.length) none }

/-- Simulation relation: the machine state `s` sits mid-enumeration (past the
`first` emission) at the already-emitted combination `c`. -/
def Sim {T} (l : List T) (kk : Nat) (s : Combinations T) (c : List Nat) : Prop :=
  s.first = false ∧ s.indices = c ∧ c.length = kk ∧ kk ≤ l.length ∧
  ((∃ m, kk ≤ m ∧ m ≤ l.length ∧
      c = consecFrom 0 (kk - 1) ++ [m - 1] ∧ s.pool = GPool l m)
   ∨ s.pool = FPool l)

/-- The padded constructor pool after its single failing `fetch`. -/
def PadPoolDone {T} (l : List T) (kk : Nat) : LazyBuffer T :=
  { iterator := { source := listSource l, cursor := kk + 1 }
    done := true
    buffer := l.map some ++ List.replicate (kk - l.length) none }

/-- The state invariant carried through the loop: the index tuple is strictly
increasing, and an empty index tuple forces an empty pool. -/
def StInv {T} (s : Combinations T) : Prop :=
  List.Pairwise (· < ·) s.indices ∧ (s.indices = [] → s.pool.length = 0)

/-! ## Mathematical layer: the lexicographic successor of a combination -/

@[simp] theorem consecFrom_length (a k : Nat) : (consecFrom a k).length = k := by
  induction k generalizing a with
  | zero => rfl
  | succ k ih => simp [consecFrom, ih]

theorem consecFrom_getD {a k j : Nat} (h : j < k) :
    (consecFrom a k).getD j 0 = a + j := by
  induction k generalizing a j with
  | zero => omega
  | succ k ih =>
    cases j with
    | zero => simp [consecFrom]
    | succ j =>
      rw [consecFrom, List.getD_cons_succ, ih (by omega)]
      omega

theorem pinned_cons_succ {n kk a j : Nat} {rest : List Nat} :
    pinned n (kk + 1) (a :: rest) (j + 1) ↔ pinned n kk rest j := by
  unfold pinned
  rw [List.getD_cons_succ]
  omega

theorem pinned_cons_zero {n kk a : Nat} {rest : List Nat} :
    pinned n kk (a :: rest) 0 ↔ a + kk = n := by
  unfold pinned
  rw [List.getD_cons_zero]
  omega

theorem mathSucc_length {n : Nat} : ∀ {c c' : List Nat},
    mathSucc n c = some c' → c'.length = c.length := by
  intro c
  induction c with
  | nil => intro c' h; simp [mathSucc] at h
  | cons a rest ih =>
    intro c' h
    rw [mathSucc] at h
    rcases hr : mathSucc n rest with _ | rest'
    · rw [hr] at h
      by_cases hp : a + (rest.length + 1) = n
      · simp [hp] at h
      · simp [hp] at h
        subst h
        simp
    · rw [hr] at h
      simp at h
      subst h
      simp [ih hr]

theorem mathSucc_eq_none_iff {n : Nat} : ∀ {c : List Nat},
    mathSucc n c = none ↔ ∀ j < c.length, pinned n c.length c j := by
  intro c
  induction c with
  | nil => simp [mathSucc]
  | cons a rest ih =>
    rw [mathSucc]
    constructor
    · intro h j hj
      rcases hr : mathSucc n rest with _ | rest' <;> rw [hr] at h
      · by_cases hp : a + (rest.length + 1) = n
        · cases j with
          | zero => exact pinned_cons_zero.2 hp
          | succ j =>
            exact pinned_cons_succ.2 ((ih.1 hr) j (by simpa using hj))
        · simp [hp] at h
      · simp at h
    · intro h
      have hrest : mathSucc n rest = none :=
        ih.2 fun j hj => pinned_cons_succ.1 (h (j + 1) (by simpa using hj))
      rw [hrest]
      have hp : a + (rest.length + 1) = n := pinned_cons_zero.1 (h 0 (by simp))
      simp [hp]

theorem mathSucc_eq_some {n : Nat} : ∀ {c : List Nat} {i : Nat},
    i < c.length → ¬ pinned n c.length c i →
    (∀ j, i < j → j < c.length → pinned n c.length c j) →
    mathSucc n c = some (c.take i ++ consecFrom (c.getD i 0 + 1) (c.length - i)) := by
  intro c
  induction c with
  | nil => intro i hi; exact absurd hi (by simp)
  | cons a rest ih =>
    intro i hi hnp hall
    cases i with
    | zero =>
      have hrest : mathSucc n rest = none := by
        apply mathSucc_eq_none_iff.2
        intro j hj
        exact pinned_cons_succ.1 (hall (j + 1) (by omega) (by simpa using hj))
      have hne : ¬ (a + (rest.length + 1) = n) := fun hc => hnp (pinned_cons_zero.2 hc)
      rw [mathSucc, hrest]
      simp [hne, consecFrom]
    | succ i' =>
      have hirest := ih (i := i') (by simpa using hi)
        (fun hp => hnp (pinned_cons_succ.2 hp))
        (fun j hj1 hj2 => pinned_cons_succ.1 (hall (j + 1) (by omega) (by simpa using hj2)))
      rw [mathSucc, hirest]
      simp [List.getD_cons_succ]

/-! ### Characterization of the machine's scan and tail reset -/

theorem scanIdx_eq_none_iff {inds : List Nat} {n kk : Nat} : ∀ {idx : Nat},
    scanIdx inds n kk idx = none ↔ ∀ j ≤ idx, pinned n kk inds j := by
  intro idx
  induction idx with
  | zero =>
    rw [scanIdx]
    constructor
    · intro h j hj
      interval_cases j
      by_cases hp : (inds.getD 0 0 : Int) = (0 : Int) + n - kk
      · unfold pinned; omega
      · rw [if_neg hp] at h; simp at h
    · intro h
      have hpin := h 0 (by omega)
      unfold pinned at hpin
      rw [if_pos (by omega)]
  | succ idx ih =>
    rw [scanIdx]
    by_cases hp : (inds.getD (idx + 1) 0 : Int) = ((idx : Int) + 1) + n - kk
    · rw [if_pos hp, ih]
      constructor
      · intro h j hj
        rcases Nat.lt_or_ge j (idx + 1) with hj' | hj'
        · exact h j (by omega)
        · have hje : j = idx + 1 := by omega
          subst hje
          unfold pinned; omega
      · intro h j hj
        exact h j (by omega)
    · rw [if_neg hp]
      constructor
      · intro h; simp at h
      · intro h
        have hpin := h (idx + 1) (by omega)
        unfold pinned at hpin
        exact absurd (by omega : (inds.getD (idx + 1) 0 : Int) = ((idx : Int) + 1) + n - kk) hp

theorem scanIdx_eq_some {inds : List Nat} {n kk : Nat} : ∀ {idx i : Nat},
    scanIdx inds n kk idx = some i →
    i ≤ idx ∧ ¬ pinned n kk inds i ∧ ∀ j, i < j → j ≤ idx → pinned n kk inds j := by
  intro idx
  induction idx with
  | zero =>
    intro i h
    rw [scanIdx] at h
    by_cases hp : (inds.getD 0 0 : Int) = (0 : Int) + n - kk
    · rw [if_pos hp] at h; simp at h
    · rw [if_neg hp] at h
      simp at h
      subst h
      refine ⟨le_refl 0, fun hc => hp ?_, fun j hj1 hj2 => by omega⟩
      unfold pinned at hc
      omega
  | succ idx ih =>
    intro i h
    rw [scanIdx] at h
    by_cases hp : (inds.getD (idx + 1) 0 : Int) = ((idx : Int) + 1) + n - kk
    · rw [if_pos hp] at h
      obtain ⟨h1, h2, h3⟩ := ih h
      refine ⟨by omega, h2, fun j hj1 hj2 => ?_⟩
      rcases Nat.lt_or_ge j (idx + 1) with hj' | hj'
      · exact h3 j hj1 (by omega)
      · have hje : j = idx + 1 := by omega
        subst hje
        unfold pinned; omega
    · rw [if_neg hp] at h
      simp at h
      subst h
      refine ⟨le_refl _, fun hc => hp ?_, fun j hj1 hj2 => by omega⟩
      unfold pinned at hc
      omega

theorem getD_set_self {ys : List Nat} {i v : Nat} (h : i < ys.length) :
    (ys.set i v).getD i 0 = v := by
  rw [List.getD_eq_getElem?_getD, List.getElem?_set_eq_of_lt v h]
  rfl

theorem take_set_succ {ys : List Nat} {i v : Nat} (h : i < ys.length) :
    (ys.set i v).take (i + 1) = ys.take i ++ [v] := by
  rw [List.set_eq_take_cons_drop v h, List.take_append_eq_append_take]
  have hlen : (ys.take i).length = i := by
    rw [List.length_take]; omega
  rw [List.take_of_length_le (by omega), hlen]
  simp

theorem resetTail_eq : ∀ (d : Nat) (ys : List Nat) (start : Nat), 1 ≤ start →
    ys.length - start = d →
    resetTail ys start ys.length =
      ys.take start ++ consecFrom (ys.getD (start - 1) 0 + 1) (ys.length - start) := by
  intro d
  induction d with
  | zero =>
    intro ys start _ hd
    unfold resetTail
    rw [hd]
    simp only [List.range'_zero, List.foldl_nil, consecFrom, List.append_nil]
    exact (List.take_of_length_le (by omega)).symm
  | succ d ih =>
    intro ys start h1 hd
    have hstart : start < ys.length := by omega
    unfold resetTail
    rw [hd, List.range'_succ, List.foldl_cons]
    have hlen' : (ys.set start (ys.getD (start - 1) 0 + 1)).length = ys.length := by simp
    have hd' : (ys.set start (ys.getD (start - 1) 0 + 1)).length - (start + 1) = d := by
      rw [hlen']; omega
    have ihh := ih (ys.set start (ys.getD (start - 1) 0 + 1)) (start + 1) (by omega) hd'
    unfold resetTail at ihh
    rw [hd'] at ihh
    rw [ihh, Nat.add_sub_cancel, getD_set_self hstart, take_set_succ hstart]
    simp [consecFrom, List.append_assoc]

/-- The machine's advance (`scan`, increment, tail reset) computes exactly the
mathematical successor: `none` case. -/
theorem bridge_none {n : Nat} {c : List Nat}
    (h : scanIdx c n c.length (c.length - 1) = none) : mathSucc n c = none := by
  apply mathSucc_eq_none_iff.2
  intro j hj
  exact scanIdx_eq_none_iff.1 h j (by omega)

/-- The machine's advance computes exactly the mathematical successor:
`some` case. -/
theorem bridge_some {n : Nat} {c : List Nat} {i : Nat} (hc : c ≠ [])
    (h : scanIdx c n c.length (c.length - 1) = some i) :
    mathSucc n c =
      some (resetTail (c.set i (c.getD i 0 + 1)) (i + 1) c.length) := by
  obtain ⟨h1, h2, h3⟩ := scanIdx_eq_some h
  have hlen : 1 ≤ c.length := List.length_pos.2 hc
  have hi : i < c.length := by omega
  have hmath := mathSucc_eq_some hi h2 (fun j hj1 hj2 => h3 j hj1 (by omega))
  rw [hmath]
  have hlset : (c.set i (c.getD i 0 + 1)).length = c.length := by simp
  have hchar := resetTail_eq ((c.set i (c.getD i 0 + 1)).length - (i + 1))
    (c.set i (c.getD i 0 + 1)) (i + 1) (by omega) rfl
  rw [hlset] at hchar
  rw [hchar, Nat.add_sub_cancel, getD_set_self hi, take_set_succ hi]
  have hd : c.length - i = (c.length - (i + 1)) + 1 := by omega
  rw [hd, consecFrom]
  simp [List.append_assoc]

/-! ### The list of all combinations in lexicographic order, and the orbit of
`mathSucc` -/

theorem combosOf_length : ∀ (l : List Nat) (kk : Nat),
    (combosOf l kk).length = Nat.choose l.length kk := by
  intro l
  induction l with
  | nil => intro kk; cases kk <;> simp [combosOf]
  | cons a l ih =>
    intro kk
    cases kk with
    | zero => simp [combosOf]
    | succ kk => simp [combosOf, ih, Nat.choose_succ_succ]

theorem combosOf_eq_nil {l : List Nat} {kk : Nat} (h : l.length < kk) :
    combosOf l kk = [] :=
  List.length_eq_zero.1 (by rw [combosOf_length]; exact Nat.choose_eq_zero_of_lt h)

theorem Finishes.head_eq {n : Nat} {c : List Nat} {out : List (List Nat)}
    (h : Finishes n c out) : ∃ t, out = c :: t := by
  cases h with
  | last _ => exact ⟨[], rfl⟩
  | step _ _ => exact ⟨_, rfl⟩

theorem consecFrom_eq_range' : ∀ (k a : Nat), consecFrom a k = List.range' a k := by
  intro k
  induction k with
  | zero => intro a; rfl
  | succ k ih => intro a; rw [consecFrom, List.range'_succ, ih]

theorem consecFrom_snoc (a k : Nat) :
    consecFrom a (k + 1) = consecFrom a k ++ [a + k] := by
  induction k generalizing a with
  | zero => simp [consecFrom]
  | succ k ih =>
    rw [consecFrom, ih, consecFrom]
    simp
    omega

/-- Prepending a pinned head to a finishing orbit. -/
theorem seg_pinned {n a : Nat} : ∀ {t : List Nat} {out : List (List Nat)},
    Finishes n t out → a + (t.length + 1) = n →
    Finishes n (a :: t) (out.map (a :: ·)) := by
  intro t out hf
  induction hf with
  | @last c hnone =>
    intro hp
    simp only [List.map_cons, List.map_nil]
    refine Finishes.last ?_
    rw [mathSucc, hnone]
    simp [hp]
  | @step c c' out' hsucc _ ih =>
    intro hp
    have hlen : c'.length = c.length := mathSucc_length hsucc
    simp only [List.map_cons]
    exact Finishes.step (by rw [mathSucc, hsucc]) (ih (by omega))

/-- Prepending an unpinned head to a finishing orbit: when the tail orbit runs
out, the head advances and the tail reseeds. -/
theorem seg_jump {n a : Nat} {out₂ : List (List Nat)} :
    ∀ {t : List Nat} {out : List (List Nat)},
    Finishes n t out → a + (t.length + 1) ≠ n →
    Finishes n (consecFrom (a + 1) (t.length + 1)) out₂ →
    Finishes n (a :: t) (out.map (a :: ·) ++ out₂) := by
  intro t out hf
  induction hf with
  | @last c hnone =>
    intro hp h2
    simp only [List.map_cons, List.map_nil, List.cons_append, List.nil_append]
    refine Finishes.step ?_ h2
    rw [mathSucc, hnone]
    simp only [hp, if_neg, if_false]
    rw [consecFrom]
  | @step c c' out' hsucc _ ih =>
    intro hp h2
    have hlen : c'.length = c.length := mathSucc_length hsucc
    simp only [List.map_cons, List.cons_append]
    exact Finishes.step (by rw [mathSucc, hsucc])
      (ih (by omega) (by rw [hlen]; exact h2))

/-- From the seed `[lo, …, lo+kk-1]`, the `mathSucc` orbit visits exactly the
`kk`-combinations of `{lo, …, n-1}` in lexicographic order. -/
theorem orbit_combos {n : Nat} : ∀ (fuelm lo kk : Nat), n - lo ≤ fuelm →
    lo + kk ≤ n →
    Finishes n (consecFrom lo kk) (combosOf (List.range' lo (n - lo)) kk) := by
  intro fuelm
  induction fuelm with
  | zero =>
    intro lo kk hfm hk
    cases kk with
    | zero =>
      have h0 : combosOf (List.range' lo (n - lo)) 0 = [[]] := by
        cases List.range' lo (n - lo) <;> rfl
      rw [h0]
      exact Finishes.last (n := n) (c := consecFrom lo 0) rfl
    | succ kk => omega
  | succ fuelm ih =>
    intro lo kk hfm hk
    cases kk with
    | zero =>
      have h0 : combosOf (List.range' lo (n - lo)) 0 = [[]] := by
        cases List.range' lo (n - lo) <;> rfl
      rw [h0]
      exact Finishes.last (n := n) (c := consecFrom lo 0) rfl
    | succ kk =>
      have hlo : lo < n := by omega
      have hrange : List.range' lo (n - lo) = lo :: List.range' (lo + 1) (n - (lo + 1)) := by
        have h1 : n - lo = (n - (lo + 1)) + 1 := by omega
        rw [h1, List.range'_succ]
      have ih1 := ih (lo + 1) kk (by omega) (by omega)
      rw [hrange]
      rw [show combosOf (lo :: List.range' (lo + 1) (n - (lo + 1))) (kk + 1) =
          (combosOf (List.range' (lo + 1) (n - (lo + 1))) kk).map (lo :: ·) ++
            combosOf (List.range' (lo + 1) (n - (lo + 1))) (kk + 1) from rfl]
      rw [consecFrom]
      by_cases hpin : lo + (kk + 1) = n
      · have hnil : combosOf (List.range' (lo + 1) (n - (lo + 1))) (kk + 1) = [] := by
          apply combosOf_eq_nil
          simp
          omega
        rw [hnil, List.append_nil]
        exact seg_pinned ih1 (by simp; omega)
      · have ih2 := ih (lo + 1) (kk + 1) (by omega) (by omega)
        have hseg := seg_jump (a := lo) ih1 (by simp; omega)
          (by simpa using ih2)
        simpa using hseg

/-! ### Evaluating the buffer operations over a finite list source -/

theorem takeCollect_eval {T} (src : Nat → Option T) : ∀ (d t : Nat),
    takeCollect ⟨src, t⟩ d = ((List.range' t d).map src, ⟨src, t + d⟩) := by
  intro d
  induction d with
  | zero => intro t; simp [takeCollect]
  | succ d ih =>
    intro t
    rw [takeCollect]
    simp only [IterState.next, List.range'_succ, List.map_cons]
    rw [ih (t + 1)]
    simp
    omega

theorem map_getElem?_range' {T} (l : List T) : ∀ (d t : Nat),
    (List.range' t d).map (fun i => l[i]?) =
      ((l.drop t).take d).map some ++ List.replicate (d - (l.length - t)) none := by
  intro d
  induction d with
  | zero => intro t; simp
  | succ d ih =>
    intro t
    rw [List.range'_succ, List.map_cons, ih (t + 1)]
    by_cases ht : t < l.length
    · rw [List.getElem?_eq_getElem ht, List.drop_eq_getElem_cons ht,
        List.take_succ_cons, List.map_cons]
      have harith : (d + 1) - (l.length - t) = d - (l.length - (t + 1)) := by omega
      rw [harith]
      simp
    · have h1 : l[t]? = none := List.getElem?_eq_none (by omega)
      have h2 : l.drop t = [] := List.drop_of_length_le (by omega)
      have h3 : l.drop (t + 1) = [] := List.drop_of_length_le (by omega)
      have harith : (d + 1) - (l.length - t) = d + 1 := by omega
      have harith2 : d - (l.length - (t + 1)) = d := by omega
      rw [h1, h2, h3, harith, harith2, List.replicate_succ]
      simp

theorem GPool_length {T} {l : List T} {m : Nat} (h : m ≤ l.length) :
    (GPool l m).length = m := by
  simp [GPool, LazyBuffer.length, List.length_take]
  omega

theorem FPool_length {T} (l : List T) : (FPool l).length = l.length := by
  simp [FPool, LazyBuffer.length]

theorem fetch_GPool_lt {T} {l : List T} {m : Nat} (h : m < l.length) :
    (GPool l m).fetch = (GPool l (m + 1), true) := by
  unfold LazyBuffer.fetch
  rw [if_neg (by simp [GPool])]
  simp only [GPool, IterState.next, listSource, List.getElem?_eq_getElem h]
  rw [List.take_succ, List.getElem?_eq_getElem h]
  simp [List.map_append]
  rw [List.take_succ]
  simp [List.getElem?_map, List.getElem?_eq_getElem h]

theorem fetch_GPool_eq {T} (l : List T) :
    (GPool l l.length).fetch = (FPool l, false) := by
  unfold LazyBuffer.fetch
  rw [if_neg (by simp [GPool])]
  simp only [GPool, IterState.next, listSource]
  rw [List.getElem?_eq_none (le_refl _)]
  simp [FPool, List.take_of_length_le (le_refl l.length)]

theorem fetch_done {T} {b : LazyBuffer T} (h : b.done = true) :
    b.fetch = (b, false) := by
  unfold LazyBuffer.fetch
  rw [if_pos h]

theorem map_listSource_range' {T} (l : List T) (d t : Nat) :
    (List.range' t d).map (listSource l) =
      ((l.drop t).take d).map some ++ List.replicate (d - (l.length - t)) none :=
  map_getElem?_range' l d t

/-- Evaluating the constructor's pool when `kk ≤ l.length`: exactly the first
`kk` elements are pulled and cached. -/
theorem prefill_make_le {T} {l : List T} {kk : Nat} (h : kk ≤ l.length) :
    (LazyBuffer.make (listSource l)).prefill (kk : Int) = GPool l kk := by
  cases kk with
  | zero =>
    unfold LazyBuffer.prefill
    rw [if_neg (by simp [LazyBuffer.make, LazyBuffer.length])]
    simp [LazyBuffer.make, GPool]
  | succ kk =>
    unfold LazyBuffer.prefill
    rw [if_pos (by simp [LazyBuffer.make, LazyBuffer.length])]
    simp only [LazyBuffer.make, LazyBuffer.length, List.length_nil,
      Nat.cast_zero, Int.sub_zero, Int.toNat_natCast]
    rw [takeCollect_eval (listSource l) (kk + 1) 0]
    rw [map_listSource_range' l (kk + 1) 0]
    have h0 : (kk + 1) - (l.length - 0) = 0 := by omega
    rw [h0]
    simp only [List.replicate_zero, List.append_nil, List.drop_zero,
      List.nil_append]
    have hlen : ((l.take (kk + 1)).map some).length = kk + 1 := by
      simp [List.length_take]; omega
    rw [GPool]
    simp [hlen]
    omega

/-- Evaluating the constructor's pool when `kk > l.length`: the cache is padded
with `undefined` to length `kk` and `done` remains `false`. -/
theorem prefill_make_gt {T} {l : List T} {kk : Nat} (h : l.length < kk) :
    (LazyBuffer.make (listSource l)).prefill (kk : Int) = PadPool l kk := by
  unfold LazyBuffer.prefill
  rw [if_pos (by simp [LazyBuffer.make, LazyBuffer.length]; omega)]
  simp only [LazyBuffer.make, LazyBuffer.length, List.length_nil,
    Nat.cast_zero, Int.sub_zero, Int.toNat_natCast]
  rw [takeCollect_eval (listSource l) kk 0]
  rw [map_listSource_range' l kk 0]
  have hlen : (((l.drop 0).take kk).map some ++
      List.replicate (kk - (l.length - 0)) none).length = kk := by
    simp [List.length_take]
    omega
  rw [PadPool]
  have htake : l.take kk = l := List.take_of_length_le (by omega)
  simp [htake]
  omega

/-! ### Simulation of the enumeration loop over a finite source -/

theorem getD_snoc (xs : List Nat) (x : Nat) : (xs ++ [x]).getD xs.length 0 = x := by
  rw [List.getD_eq_getElem?_getD, List.getElem?_concat_length]
  rfl

/-- `mathSucc` at a growing-phase tuple `[0, …, kk-2, m-1]` with bound
`N > m`: the last entry advances to `m`. -/
theorem mathSucc_G {kk m N : Nat} (hk : 1 ≤ kk) (hm : kk ≤ m) (hN : m < N) :
    mathSucc N (consecFrom 0 (kk - 1) ++ [m - 1]) =
      some (consecFrom 0 (kk - 1) ++ [m]) := by
  have hclen : (consecFrom 0 (kk - 1) ++ [m - 1]).length = kk := by
    simp; omega
  have hgetD : (consecFrom 0 (kk - 1) ++ [m - 1]).getD (kk - 1) 0 = m - 1 := by
    have h2 := getD_snoc (consecFrom 0 (kk - 1)) (m - 1)
    rw [consecFrom_length] at h2
    exact h2
  have hres := mathSucc_eq_some (n := N) (c := consecFrom 0 (kk - 1) ++ [m - 1])
    (i := kk - 1) (by omega)
    (by
      intro hpin
      unfold pinned at hpin
      rw [hclen, hgetD] at hpin
      omega)
    (by
      intro j hj1 hj2
      rw [hclen] at hj2
      omega)
  have htake : (consecFrom 0 (kk - 1) ++ [m - 1]).take (kk - 1) =
      consecFrom 0 (kk - 1) := by
    rw [List.take_append_of_le_length (by simp)]
    exact List.take_of_length_le (by simp)
  rw [hres, hclen, hgetD, htake]
  have hone : kk - (kk - 1) = 1 := by omega
  have hm1 : m - 1 + 1 = m := by omega
  rw [hone, hm1]
  simp [consecFrom]

/-- Evaluating one advance iteration when the fetch guard
`indices[k-1] === n-1` holds. -/
theorem step_eval_fetch {T} {pool : LazyBuffer T} {inds : List Nat}
    (hn0 : ¬ pool.length = 0)
    (hcond : (inds.getD (inds.length - 1) 0 : Int) = (pool.length : Int) - 1) :
    Combinations.step ⟨false, pool, inds⟩ =
      match scanIdx inds ((pool.fetch).1).length inds.length (inds.length - 1) with
      | none => (false, ⟨false, (pool.fetch).1, inds⟩)
      | some i => (true, ⟨false, (pool.fetch).1,
          resetTail (inds.set i (inds.getD i 0 + 1)) (i + 1) inds.length⟩) := by
  unfold Combinations.step
  rw [if_neg (show ¬ ((⟨false, pool, inds⟩ : Combinations T).first = true) by simp)]
  simp only [Combinations.n, Combinations.k]
  rw [if_neg hn0]
  rw [if_pos hcond]

/-- Evaluating one advance iteration when the fetch guard fails. -/
theorem step_eval_nofetch {T} {pool : LazyBuffer T} {inds : List Nat}
    (hn0 : ¬ pool.length = 0)
    (hcond : ¬ (inds.getD (inds.length - 1) 0 : Int) = (pool.length : Int) - 1) :
    Combinations.step ⟨false, pool, inds⟩ =
      match scanIdx inds pool.length inds.length (inds.length - 1) with
      | none => (false, ⟨false, pool, inds⟩)
      | some i => (true, ⟨false, pool,
          resetTail (inds.set i (inds.getD i 0 + 1)) (i + 1) inds.length⟩) := by
  unfold Combinations.step
  rw [if_neg (show ¬ ((⟨false, pool, inds⟩ : Combinations T).first = true) by simp)]
  simp only [Combinations.n, Combinations.k]
  rw [if_neg hn0]
  rw [if_neg hcond]

theorem G_cond {T} {l : List T} {kk m : Nat} (hk : 1 ≤ kk) (hm1 : kk ≤ m)
    (hm2 : m ≤ l.length) :
    (((consecFrom 0 (kk - 1) ++ [m - 1]).getD
        ((consecFrom 0 (kk - 1) ++ [m - 1]).length - 1) 0 : Int) =
      ((GPool l m).length : Int) - 1) := by
  have hgd := getD_snoc (consecFrom 0 (kk - 1)) (m - 1)
  rw [consecFrom_length] at hgd
  have hlen2 : (consecFrom 0 (kk - 1) ++ [m - 1]).length = kk := by simp; omega
  rw [hlen2, hgd, GPool_length hm2]
  omega

/-- Termination simulation: when the mathematical successor does not exist, the
machine's step finishes the generator, leaving the pool exhausted. -/
theorem step_sim_none {T} {l : List T} {kk : Nat} (hkk : 1 ≤ kk)
    {s : Combinations T} {c : List Nat} (hsim : Sim l kk s c)
    (hnone : mathSucc l.length c = none) :
    s.step = (false, ⟨false, FPool l, c⟩) := by
  obtain ⟨first, pool, inds⟩ := s
  obtain ⟨hf, hi, hlen, hkl, hcase⟩ := hsim
  replace hf : first = false := hf
  replace hi : inds = c := hi
  subst hf
  subst hi
  have hcne : inds ≠ [] := by
    intro hn
    rw [hn] at hlen
    simp at hlen
    omega
  rcases hcase with ⟨m, hm1, hm2, hc, hp⟩ | hp
  · replace hp : pool = GPool l m := hp
    subst hp
    have hmn : m = l.length := by
      by_contra hne
      have hlt : m < l.length := by omega
      rw [hc, mathSucc_G hkk hm1 hlt] at hnone
      exact Option.noConfusion hnone
    subst hmn
    subst hc
    rw [step_eval_fetch (by rw [GPool_length hm2]; omega) (G_cond hkk hm1 hm2)]
    simp only [fetch_GPool_eq]
    rw [FPool_length]
    rcases hscan : scanIdx (consecFrom 0 (kk - 1) ++ [l.length - 1]) l.length
        (consecFrom 0 (kk - 1) ++ [l.length - 1]).length
        ((consecFrom 0 (kk - 1) ++ [l.length - 1]).length - 1) with _ | i
    · rfl
    · exfalso
      have hms := bridge_some hcne hscan
      rw [hnone] at hms
      exact Option.noConfusion hms
  · replace hp : pool = FPool l := hp
    subst hp
    have hn0 : ¬ (FPool l).length = 0 := by rw [FPool_length]; omega
    by_cases hcond :
        ((inds.getD (inds.length - 1) 0 : Int) = ((FPool l).length : Int) - 1)
    · rw [step_eval_fetch hn0 hcond]
      simp only [fetch_done (rfl : (FPool l).done = true)]
      rw [FPool_length]
      rcases hscan : scanIdx inds l.length inds.length (inds.length - 1) with _ | i
      · rfl
      · exfalso
        have hms := bridge_some hcne hscan
        rw [hnone] at hms
        exact Option.noConfusion hms
    · rw [step_eval_nofetch hn0 hcond]
      rw [FPool_length]
      rcases hscan : scanIdx inds l.length inds.length (inds.length - 1) with _ | i
      · rfl
      · exfalso
        have hms := bridge_some hcne hscan
        rw [hnone] at hms
        exact Option.noConfusion hms

/-- Advance simulation: when the mathematical successor exists, the machine's
step yields it, preserving the simulation relation. -/
theorem step_sim_some {T} {l : List T} {kk : Nat} (hkk : 1 ≤ kk)
    {s : Combinations T} {c c' : List Nat} (hsim : Sim l kk s c)
    (hsucc : mathSucc l.length c = some c') :
    ∃ s', s.step = (true, s') ∧ Sim l kk s' c' := by
  obtain ⟨first, pool, inds⟩ := s
  obtain ⟨hf, hi, hlen, hkl, hcase⟩ := hsim
  replace hf : first = false := hf
  replace hi : inds = c := hi
  subst hf
  subst hi
  have hcne : inds ≠ [] := by
    intro hn
    rw [hn] at hlen
    simp at hlen
    omega
  have hclen' : c'.length = kk := by
    rw [← hlen]
    exact mathSucc_length hsucc
  rcases hcase with ⟨m, hm1, hm2, hc, hp⟩ | hp
  · replace hp : pool = GPool l m := hp
    subst hp
    rcases Nat.lt_or_ge m l.length with hlt | hge
    · -- growing phase: the buffer extends and the last index advances
      subst hc
      have hv := mathSucc_G (N := l.length) hkk hm1 hlt
      rw [hv] at hsucc
      have hc' : c' = consecFrom 0 (kk - 1) ++ [m] := by
        injection hsucc with hs
        exact hs.symm
      rw [step_eval_fetch (by rw [GPool_length hm2]; omega) (G_cond hkk hm1 hm2)]
      simp only [fetch_GPool_lt hlt]
      rw [GPool_length (by omega)]
      have hv2 := mathSucc_G (N := m + 1) hkk hm1 (by omega)
      rcases hscan : scanIdx (consecFrom 0 (kk - 1) ++ [m - 1]) (m + 1)
          (consecFrom 0 (kk - 1) ++ [m - 1]).length
          ((consecFrom 0 (kk - 1) ++ [m - 1]).length - 1) with _ | i
      · exfalso
        have := bridge_none hscan
        rw [hv2] at this
        exact Option.noConfusion this
      · have hbs := bridge_some hcne hscan
        rw [hv2] at hbs
        injection hbs with hbs'
        refine ⟨_, rfl, rfl, ?_, hclen', hkl, Or.inl ⟨m + 1, by omega, by omega,
          ?_, rfl⟩⟩
        · rw [hc', ← hbs']
        · rw [hc']
          simp
    · -- the buffer is complete: this step exhausts the source, then advances
      have hmn : m = l.length := by omega
      subst hmn
      subst hc
      rw [step_eval_fetch (by rw [GPool_length hm2]; omega) (G_cond hkk hm1 hm2)]
      simp only [fetch_GPool_eq]
      rw [FPool_length]
      rcases hscan : scanIdx (consecFrom 0 (kk - 1) ++ [l.length - 1]) l.length
          (consecFrom 0 (kk - 1) ++ [l.length - 1]).length
          ((consecFrom 0 (kk - 1) ++ [l.length - 1]).length - 1) with _ | i
      · exfalso
        have := bridge_none hscan
        rw [hsucc] at this
        exact Option.noConfusion this
      · have hbs := bridge_some hcne hscan
        rw [hsucc] at hbs
        injection hbs with hbs'
        exact ⟨_, rfl, rfl, hbs'.symm, hclen', hkl, Or.inr rfl⟩
  · replace hp : pool = FPool l := hp
    subst hp
    have hn0 : ¬ (FPool l).length = 0 := by rw [FPool_length]; omega
    by_cases hcond :
        ((inds.getD (inds.length - 1) 0 : Int) = ((FPool l).length : Int) - 1)
    · rw [step_eval_fetch hn0 hcond]
      simp only [fetch_done (rfl : (FPool l).done = true)]
      rw [FPool_length]
      rcases hscan : scanIdx inds l.length inds.length (inds.length - 1) with _ | i
      · exfalso
        have := bridge_none hscan
        rw [hsucc] at this
        exact Option.noConfusion this
      · have hbs := bridge_some hcne hscan
        rw [hsucc] at hbs
        injection hbs with hbs'
        exact ⟨_, rfl, rfl, hbs'.symm, hclen', hkl, Or.inr rfl⟩
    · rw [step_eval_nofetch hn0 hcond]
      rw [FPool_length]
      rcases hscan : scanIdx inds l.length inds.length (inds.length - 1) with _ | i
      · exfalso
        have := bridge_none hscan
        rw [hsucc] at this
        exact Option.noConfusion this
      · have hbs := bridge_some hcne hscan
        rw [hsucc] at hbs
        injection hbs with hbs'
        exact ⟨_, rfl, rfl, hbs'.symm, hclen', hkl, Or.inr rfl⟩

theorem GPool_get {T} {l : List T} {m i : Nat} (hi : i < m) (hm : m ≤ l.length) :
    (GPool l m).get i = l[i]? := by
  unfold LazyBuffer.get GPool
  rw [List.getD_eq_getElem?_getD, List.getElem?_map, List.getElem?_take_of_lt hi,
    List.getElem?_eq_getElem (by omega)]
  rfl

theorem FPool_get {T} {l : List T} (i : Nat) : (FPool l).get i = l[i]? := by
  unfold LazyBuffer.get FPool
  rw [List.getD_eq_getElem?_getD, List.getElem?_map]
  cases h : l[i]? <;> simp

/-- A simulated mid-state emits its combination read through the source list. -/
theorem Sim_emit {T} {l : List T} {kk : Nat} {s : Combinations T} {c : List Nat}
    (hkk : 1 ≤ kk) (hsim : Sim l kk s c) :
    s.emit = c.map (fun i => l[i]?) := by
  obtain ⟨_, hi, hlen, hkl, hcase⟩ := hsim
  unfold Combinations.emit
  rw [hi]
  rcases hcase with ⟨m, hm1, hm2, hc, hp⟩ | hp
  · rw [hp]
    apply List.map_congr_left
    intro x hx
    apply GPool_get ?_ hm2
    rw [hc] at hx
    rcases List.mem_append.1 hx with hx | hx
    · rw [consecFrom_eq_range'] at hx
      obtain ⟨i, hi1, hi2⟩ := List.mem_range'.1 hx
      omega
    · simp at hx
      omega
  · rw [hp]
    apply List.map_congr_left
    intro x _
    exact FPool_get x

/-- Core correspondence: from a simulated mid-state whose current combination
`c` has orbit `out`, the machine emits exactly `out.tail` (as index tuples, and
as element tuples read through the source) and halts in the exhausted state at
the orbit's last combination. -/
theorem run_sim {T} {l : List T} {kk : Nat} (hkk : 1 ≤ kk) :
    ∀ {c : List Nat} {out : List (List Nat)}, Finishes l.length c out →
    ∀ {s : Combinations T}, Sim l kk s c → ∀ (fuel : Nat), out.length ≤ fuel →
    (s.iterate fuel).1.map Combinations.indices = out.tail ∧
    (s.iterate fuel).1.map Combinations.emit =
      out.tail.map (fun cc => cc.map (fun i => l[i]?)) ∧
    ∃ dd, out.getLast? = some dd ∧
      (s.iterate fuel).2 = ⟨false, FPool l, dd⟩ := by
  intro c out hf
  induction hf with
  | @last c hnone =>
    intro s hsim fuel hfuel
    cases fuel with
    | zero => simp at hfuel
    | succ fuel =>
      have hstep := step_sim_none hkk hsim hnone
      rw [Combinations.iterate, hstep]
      exact ⟨rfl, rfl, c, rfl, rfl⟩
  | @step c c' out' hsucc hf' ih =>
    intro s hsim fuel hfuel
    cases fuel with
    | zero => simp at hfuel
    | succ fuel =>
      obtain ⟨s', hstep, hsim'⟩ := step_sim_some hkk hsim hsucc
      have hfuel' : out'.length ≤ fuel := by
        simp at hfuel
        omega
      obtain ⟨ih1, ih2, dd, hdd1, hdd2⟩ := ih hsim' fuel hfuel'
      obtain ⟨t', ht'⟩ := hf'.head_eq
      have hind : s'.indices = c' := hsim'.2.1
      rw [Combinations.iterate, hstep]
      refine ⟨?_, ?_, dd, ?_, ?_⟩
      · simp only [List.map_cons, ih1, hind, ht', List.tail_cons]
      · simp only [List.map_cons, ih2, Sim_emit hkk hsim', ht', List.tail_cons,
          List.map_cons]
      · rw [ht']
        rw [List.getLast?_cons_cons]
        rw [← ht']
        exact hdd1
      · exact hdd2

/-! ### Top-level evaluation of full traversals -/

/-- The first loop iteration when enumeration can start: emit the seed. -/
theorem step_first_emit {T} {pool : LazyBuffer T} {inds : List Nat}
    (h : ¬ inds.length > pool.length) :
    Combinations.step ⟨true, pool, inds⟩ = (true, ⟨false, pool, inds⟩) := by
  unfold Combinations.step
  rw [if_pos (show (⟨true, pool, inds⟩ : Combinations T).first = true from rfl)]
  rw [if_neg (show ¬ ((⟨true, pool, inds⟩ : Combinations T).k >
    (⟨true, pool, inds⟩ : Combinations T).n) from h)]

/-- The loop terminates immediately on an empty pool once started. -/
theorem step_stop_n0 {T} {pool : LazyBuffer T} {inds : List Nat}
    (h : pool.length = 0) :
    Combinations.step ⟨false, pool, inds⟩ = (false, ⟨false, pool, inds⟩) := by
  unfold Combinations.step
  rw [if_neg (show ¬ ((⟨false, pool, inds⟩ : Combinations T).first = true) by simp)]
  simp only [Combinations.n]
  rw [if_pos h]

/-- `prefill` is a no-op on an exhausted buffer. -/
theorem prefill_done {T} {b : LazyBuffer T} (h : b.done = true) (k : Int) :
    b.prefill k = b := by
  unfold LazyBuffer.prefill
  rw [if_neg (by simp [h])]

theorem consecFrom_zero_eq_range (kk : Nat) : consecFrom 0 kk = List.range kk := by
  rw [consecFrom_eq_range']
  exact (List.range_eq_range' kk).symm

theorem range_eq_snoc {kk : Nat} (h : 1 ≤ kk) :
    List.range kk = consecFrom 0 (kk - 1) ++ [kk - 1] := by
  rw [← consecFrom_zero_eq_range]
  have h2 : kk = (kk - 1) + 1 := by omega
  conv_lhs => rw [h2]
  rw [consecFrom_snoc]
  simp

theorem combosOf_mem_length : ∀ {l : List Nat} {kk : Nat} {cc : List Nat},
    cc ∈ combosOf l kk → cc.length = kk := by
  intro l
  induction l with
  | nil =>
    intro kk cc hcc
    cases kk with
    | zero => simp [combosOf] at hcc; simp [hcc]
    | succ kk => simp [combosOf] at hcc
  | cons a l ih =>
    intro kk cc hcc
    cases kk with
    | zero => simp [combosOf] at hcc; simp [hcc]
    | succ kk =>
      rcases List.mem_append.1 hcc with hcc | hcc
      · obtain ⟨dd, hdd, hddc⟩ := List.mem_map.1 hcc
        subst hddc
        simp [ih hdd]
      · exact ih hcc

/-- Evaluation of one full traversal of `ofList l kk`, `1 ≤ kk ≤ l.length`:
the emitted index tuples are exactly the lexicographically ordered
combinations, the emitted elements are those tuples read through `l`, and the
object halts exhausted at the last combination. -/
theorem traverse_combos {T} (l : List T) (kk fuel : Nat) (hkk : 1 ≤ kk)
    (hkl : kk ≤ l.length)
    (hfuel : (combosOf (List.range l.length) kk).length < fuel) :
    ((ofList l kk).traverse fuel).1.map Combinations.indices =
      combosOf (List.range l.length) kk ∧
    ((ofList l kk).traverse fuel).1.map Combinations.emit =
      (combosOf (List.range l.length) kk).map
        (fun cc => cc.map (fun i => l[i]?)) ∧
    ∃ dd, (combosOf (List.range l.length) kk).getLast? = some dd ∧
      ((ofList l kk).traverse fuel).2 = ⟨false, FPool l, dd⟩ := by
  have hof : ofList l kk = ⟨true, GPool l kk, List.range kk⟩ := by
    unfold ofList Combinations.make
    rw [Int.toNat_natCast, prefill_make_le hkl]
  have hfin : Finishes l.length (consecFrom 0 kk)
      (combosOf (List.range' 0 l.length) kk) := by
    have := orbit_combos (n := l.length) l.length 0 kk (by omega) (by omega)
    simpa using this
  rw [← List.range_eq_range'] at hfin
  rw [consecFrom_zero_eq_range] at hfin
  cases fuel with
  | zero => omega
  | succ fuel =>
    have hbegin : (ofList l kk).beginIter = ofList l kk := by
      rw [hof]
      rfl
    unfold Combinations.traverse
    rw [hbegin, hof, Combinations.iterate,
      step_first_emit (by rw [GPool_length hkl]; simp)]
    have hsim1 : Sim l kk ⟨false, GPool l kk, List.range kk⟩ (List.range kk) :=
      ⟨rfl, rfl, by simp, hkl,
        Or.inl ⟨kk, le_refl _, hkl, range_eq_snoc hkk, rfl⟩⟩
    obtain ⟨ih1, ih2, dd, hdd1, hdd2⟩ := run_sim hkk hfin hsim1
      fuel (by omega)
    obtain ⟨t', ht'⟩ := hfin.head_eq
    refine ⟨?_, ?_, dd, hdd1, hdd2⟩
    · simp only [List.map_cons, ih1, ht', List.tail_cons]
    · simp only [List.map_cons, ih2, Sim_emit hkk hsim1, ht', List.tail_cons,
        List.map_cons]

-- Sanity checks of the model on the concrete scenarios of the spec.
example : emissionsIdx 10 (ofList [10, 20, 30, 40] 2) =
    [[0, 1], [0, 2], [0, 3], [1, 2], [1, 3], [2, 3]] := by decide
example : emissionsElems 3 (ofList ([] : List Nat) 1) = [[none]] := by decide
example : emissionsIdx 6 (Combinations.make natsSource 2) =
    [[0, 1], [0, 2], [0, 3], [0, 4], [0, 5], [0, 6]] := by decide
example : ((Combinations.make natsSource 2).traverse 6).2.pool.iterator.cursor = 7 := by
  decide
example : emissionsIdx 4 (ofList [7, 8, 9] 0) = [[]] := by decide
example : emissionsIdx 9 (ofList [7, 8, 9] 3) = [[0, 1, 2]] := by decide

theorem PadPool_length {T} {l : List T} {kk : Nat} (h : l.length ≤ kk) :
    (PadPool l kk).length = kk := by
  simp [PadPool, LazyBuffer.length]
  omega

theorem PadPoolDone_length {T} {l : List T} {kk : Nat} (h : l.length ≤ kk) :
    (PadPoolDone l kk).length = kk := by
  simp [PadPoolDone, LazyBuffer.length]
  omega

theorem fetch_PadPool {T} {l : List T} {kk : Nat} (h : l.length ≤ kk) :
    (PadPool l kk).fetch = (PadPoolDone l kk, false) := by
  unfold LazyBuffer.fetch
  rw [if_neg (by simp [PadPool])]
  simp only [PadPool, IterState.next, listSource]
  rw [List.getElem?_eq_none h]
  rfl

theorem range_getD {j kk : Nat} (h : j < kk) : (List.range kk).getD j 0 = j := by
  rw [List.getD_eq_getElem?_getD,
    List.getElem?_eq_getElem (by simpa using h), List.getElem_range]
  rfl

/-- In the padded state every index of the seed is pinned, so the scan walks
off the left end and the generator returns. -/
theorem scan_range_pinned {kk : Nat} (hk : 1 ≤ kk) :
    scanIdx (List.range kk) kk kk (kk - 1) = none := by
  apply scanIdx_eq_none_iff.2
  intro j hj
  unfold pinned
  rw [range_getD (by omega)]

/-- Unfolding `iterate` one emitting step. -/
theorem iterate_succ_true {T} {s s' : Combinations T} (h : s.step = (true, s'))
    (fuel : Nat) :
    Combinations.iterate (fuel + 1) s =
      (s' :: (Combinations.iterate fuel s').1, (Combinations.iterate fuel s').2) := by
  rw [Combinations.iterate, h]

/-- Unfolding `iterate` one terminating step. -/
theorem iterate_succ_false {T} {s s' : Combinations T} (h : s.step = (false, s'))
    (fuel : Nat) :
    Combinations.iterate (fuel + 1) s = ([], s') := by
  rw [Combinations.iterate, h]

theorem step_pad1 {T} {l : List T} {kk : Nat} (hgt : l.length < kk) :
    Combinations.step ⟨false, PadPool l kk, List.range kk⟩ =
      (false, ⟨false, PadPoolDone l kk, List.range kk⟩) := by
  have hk1 : 1 ≤ kk := by omega
  have hcond : (((List.range kk).getD ((List.range kk).length - 1) 0 : Int)) =
      ((PadPool l kk).length : Int) - 1 := by
    rw [List.length_range, range_getD (by omega), PadPool_length (by omega)]
    omega
  rw [step_eval_fetch (by rw [PadPool_length (by omega)]; omega) hcond]
  simp only [fetch_PadPool (le_of_lt hgt)]
  rw [PadPoolDone_length (le_of_lt hgt), List.length_range,
    scan_range_pinned hk1]

theorem step_pad2 {T} {l : List T} {kk : Nat} (hgt : l.length < kk) :
    Combinations.step ⟨false, PadPoolDone l kk, List.range kk⟩ =
      (false, ⟨false, PadPoolDone l kk, List.range kk⟩) := by
  have hk1 : 1 ≤ kk := by omega
  have hcond : (((List.range kk).getD ((List.range kk).length - 1) 0 : Int)) =
      ((PadPoolDone l kk).length : Int) - 1 := by
    rw [List.length_range, range_getD (by omega), PadPoolDone_length (by omega)]
    omega
  rw [step_eval_fetch (by rw [PadPoolDone_length (by omega)]; omega) hcond]
  simp only [fetch_done (rfl : (PadPoolDone l kk).done = true)]
  rw [PadPoolDone_length (le_of_lt hgt), List.length_range,
    scan_range_pinned hk1]

/-- `[Symbol.iterator]()` on a started object performs the reset. -/
theorem beginIter_not_first {T} {pool : LazyBuffer T} {inds : List Nat} :
    (⟨false, pool, inds⟩ : Combinations T).beginIter =
      ⟨true, pool.prefill (inds.length : Int), List.range inds.length⟩ := by
  unfold Combinations.beginIter Combinations.reset
  rw [if_pos (by simp)]
  rfl

/-- Full-traversal evaluation for `k = 0`: one empty emission, nothing pulled. -/
theorem traverse_k0 {T} (l : List T) (fuel : Nat) (hfuel : 2 ≤ fuel) :
    (ofList l 0).traverse fuel =
      ([⟨false, GPool l 0, List.range 0⟩], ⟨false, GPool l 0, List.range 0⟩) := by
  have hof : ofList l 0 = ⟨true, GPool l 0, List.range 0⟩ := by
    unfold ofList Combinations.make
    rw [Int.toNat_natCast, prefill_make_le (by omega)]
  obtain ⟨f, rfl⟩ : ∃ f, fuel = f + 1 + 1 := ⟨fuel - 2, by omega⟩
  unfold Combinations.traverse
  rw [show (ofList l 0).beginIter = ofList l 0 from by rw [hof]; rfl, hof]
  rw [iterate_succ_true
    (step_first_emit (by rw [GPool_length (by omega)]; simp)) _]
  rw [iterate_succ_false (step_stop_n0 (GPool_length (by omega))) _]

/-- Full-traversal evaluation for `k` exceeding the input length: the padded
seed is emitted once, then the single failing `fetch` exhausts the pool. -/
theorem traverse_pad {T} (l : List T) (kk fuel : Nat) (hgt : l.length < kk)
    (hfuel : 2 ≤ fuel) :
    (ofList l kk).traverse fuel =
      ([⟨false, PadPool l kk, List.range kk⟩],
        ⟨false, PadPoolDone l kk, List.range kk⟩) := by
  have hof : ofList l kk = ⟨true, PadPool l kk, List.range kk⟩ := by
    unfold ofList Combinations.make
    rw [Int.toNat_natCast, prefill_make_gt hgt]
  obtain ⟨f, rfl⟩ : ∃ f, fuel = f + 1 + 1 := ⟨fuel - 2, by omega⟩
  unfold Combinations.traverse
  rw [show (ofList l kk).beginIter = ofList l kk from by rw [hof]; rfl, hof]
  rw [iterate_succ_true (step_first_emit
    (by rw [List.length_range, PadPool_length (by omega)]; simp)) _]
  rw [iterate_succ_false (step_pad1 hgt) _]

theorem prefill_nonpos {T} {b : LazyBuffer T} {k : Int} (h : k ≤ 0) :
    b.prefill k = b := by
  unfold LazyBuffer.prefill
  rw [if_neg (by
    intro hcon
    have h2 := hcon.2
    omega)]

theorem traverse_eq {T} (c : Combinations T) (fuel : Nat) :
    c.traverse fuel = (c.beginIter).iterate fuel := rfl

/-! ### Invariants of the emitted index tuples (arbitrary source) -/

theorem getD_eq_getElem {cs : List Nat} {i : Nat} (h : i < cs.length) :
    cs.getD i 0 = cs[i] := by
  rw [List.getD_eq_getElem?_getD, List.getElem?_eq_getElem h]
  rfl

/-- Closed form of the machine's increment-and-reset on the scan position. -/
theorem advance_closed_form {c : List Nat} {i : Nat} (hi : i < c.length) :
    resetTail (c.set i (c.getD i 0 + 1)) (i + 1) c.length =
      c.take i ++ consecFrom (c.getD i 0 + 1) (c.length - i) := by
  have hlset : (c.set i (c.getD i 0 + 1)).length = c.length := by simp
  have hchar := resetTail_eq ((c.set i (c.getD i 0 + 1)).length - (i + 1))
    (c.set i (c.getD i 0 + 1)) (i + 1) (by omega) rfl
  rw [hlset] at hchar
  rw [hchar, Nat.add_sub_cancel, getD_set_self hi, take_set_succ hi]
  have hd : c.length - i = (c.length - (i + 1)) + 1 := by omega
  rw [hd, consecFrom]
  simp [List.append_assoc]

theorem advance_pairwise {cs : List Nat} {i : Nat}
    (hp : List.Pairwise (· < ·) cs) (hi : i < cs.length) :
    List.Pairwise (· < ·)
      (cs.take i ++ consecFrom (cs.getD i 0 + 1) (cs.length - i)) := by
  rw [List.pairwise_append]
  refine ⟨hp.sublist (List.take_sublist _ _), ?_, ?_⟩
  · rw [consecFrom_eq_range']
    exact List.pairwise_lt_range' _ _
  · intro x hx y hy
    have hmemd : cs[i] ∈ cs.drop i := by
      rw [List.drop_eq_getElem_cons hi]
      exact List.mem_cons_self _ _
    have hxc : x < cs[i] := hp.rel_of_mem_take_of_mem_drop hx hmemd
    rw [consecFrom_eq_range'] at hy
    obtain ⟨j, hj, hjy⟩ := List.mem_range'.1 hy
    have := getD_eq_getElem hi
    omega

theorem lex_append_lt {p : List Nat} {x y : Nat} (u v : List Nat)
    (h : x < y) :
    List.Lex (· < ·) (p ++ x :: u) (p ++ y :: v) := by
  induction p with
  | nil => exact List.Lex.rel h
  | cons a p ih => exact List.Lex.cons ih

theorem take_getD_drop {cs : List Nat} {i : Nat} (h : i < cs.length) :
    cs = cs.take i ++ cs.getD i 0 :: cs.drop (i + 1) := by
  conv_lhs => rw [← List.take_append_drop i cs]
  rw [List.drop_eq_getElem_cons h, getD_eq_getElem h]

theorem advance_lex {cs : List Nat} {i : Nat} (hi : i < cs.length) :
    List.Lex (· < ·) cs
      (cs.take i ++ consecFrom (cs.getD i 0 + 1) (cs.length - i)) := by
  have hd : cs.length - i = (cs.length - (i + 1)) + 1 := by omega
  rw [hd, consecFrom]
  conv_lhs => rw [take_getD_drop hi]
  exact lex_append_lt _ _ (Nat.lt_succ_self _)

/-- Evaluating the `first` iteration. -/
theorem step_eval_first {T} {pool : LazyBuffer T} {inds : List Nat} :
    Combinations.step ⟨true, pool, inds⟩ =
      if inds.length > pool.length then (false, ⟨true, pool, inds⟩)
      else (true, ⟨false, pool, inds⟩) := by
  unfold Combinations.step
  rw [if_pos (show (⟨true, pool, inds⟩ : Combinations T).first = true from rfl)]
  by_cases h : inds.length > pool.length
  · rw [if_pos (show (⟨true, pool, inds⟩ : Combinations T).k >
      (⟨true, pool, inds⟩ : Combinations T).n from h), if_pos h]
  · rw [if_neg (show ¬ ((⟨true, pool, inds⟩ : Combinations T).k >
      (⟨true, pool, inds⟩ : Combinations T).n) from h), if_neg h]

/-- Everything an emitting step guarantees: the new state is started, the
invariant is preserved, and (mid-enumeration) the indices strictly grow
lexicographically. -/
theorem step_true_app {T} {s s' : Combinations T} (hinv : StInv s)
    (h : s.step = (true, s')) :
    s'.first = false ∧ StInv s' ∧
    (s.first = false → List.Lex (· < ·) s.indices s'.indices) := by
  obtain ⟨first, pool, inds⟩ := s
  obtain ⟨hp, he⟩ := hinv
  cases first
  · -- mid-enumeration
    by_cases hn : pool.length = 0
    · rw [step_stop_n0 hn] at h
      simp at h
    · have hne : inds ≠ [] := fun hnil => hn (he hnil)
      have hlen1 : 1 ≤ inds.length := List.length_pos.2 hne
      by_cases hcond :
          ((inds.getD (inds.length - 1) 0 : Int) = (pool.length : Int) - 1)
      · rw [step_eval_fetch hn hcond] at h
        rcases hscan : scanIdx inds (((pool.fetch).1)).length inds.length
            (inds.length - 1) with _ | i
        · rw [hscan] at h
          simp at h
        · rw [hscan] at h
          have hi : i < inds.length := by
            have := (scanIdx_eq_some hscan).1
            omega
          injection h with h1 h2
          subst h2
          refine ⟨rfl, ⟨?_, ?_⟩, fun _ => ?_⟩
          · simp only [advance_closed_form hi]
            exact advance_pairwise hp hi
          · intro hnil
            have hlen2 := congrArg List.length hnil
            rw [advance_closed_form hi] at hlen2
            simp only [List.length_append, List.length_take, consecFrom_length,
              List.length_nil] at hlen2
            omega
          · simp only [advance_closed_form hi]
            exact advance_lex hi
      · rw [step_eval_nofetch hn hcond] at h
        rcases hscan : scanIdx inds pool.length inds.length
            (inds.length - 1) with _ | i
        · rw [hscan] at h
          simp at h
        · rw [hscan] at h
          have hi : i < inds.length := by
            have := (scanIdx_eq_some hscan).1
            omega
          injection h with h1 h2
          subst h2
          refine ⟨rfl, ⟨?_, ?_⟩, fun _ => ?_⟩
          · simp only [advance_closed_form hi]
            exact advance_pairwise hp hi
          · intro hnil
            have hlen2 := congrArg List.length hnil
            rw [advance_closed_form hi] at hlen2
            simp only [List.length_append, List.length_take, consecFrom_length,
              List.length_nil] at hlen2
            omega
          · simp only [advance_closed_form hi]
            exact advance_lex hi
  · -- first iteration: the seed is emitted unchanged
    rw [step_eval_first] at h
    by_cases hgt : inds.length > pool.length
    · rw [if_pos hgt] at h
      simp at h
    · rw [if_neg hgt] at h
      injection h with h1 h2
      subst h2
      exact ⟨rfl, ⟨hp, he⟩, fun hc => by simp at hc⟩

theorem lex_trans : ∀ {a b c : List Nat},
    List.Lex (· < ·) a b → List.Lex (· < ·) b c → List.Lex (· < ·) a c := by
  intro a b c h1 h2
  induction h1 generalizing c with
  | nil =>
    cases h2 with
    | cons _ => exact List.Lex.nil
    | rel _ => exact List.Lex.nil
  | @cons x l1 l2 h ih =>
    cases h2 with
    | cons h' => exact List.Lex.cons (ih h')
    | rel h' => exact List.Lex.rel h'
  | @rel x l1 y l2 h =>
    cases h2 with
    | cons h' => exact List.Lex.rel h
    | rel h' => exact List.Lex.rel (lt_trans h h')

theorem lex_irrefl : ∀ (a : List Nat), ¬ List.Lex (· < ·) a a := by
  intro a h
  induction a with
  | nil => cases h
  | cons x l ih =>
    cases h with
    | cons h' => exact ih h'
    | rel h' => exact lt_irrefl _ h'

/-- The head of a nonempty run of `iterate` is produced by a `(true, ·)` step. -/
theorem iterate_head {T} {fuel : Nat} {s s'' : Combinations T}
    (h : ((Combinations.iterate fuel s).1).head? = some s'') :
    s.step = (true, s'') := by
  cases fuel with
  | zero => simp [Combinations.iterate] at h
  | succ fuel =>
    rcases hstep : s.step with ⟨e, s1⟩
    cases e
    · rw [iterate_succ_false hstep] at h
      simp at h
    · rw [iterate_succ_true hstep] at h
      simp at h
      subst h
      rfl

/-- Master induction: from an invariant state, all emitted states satisfy the
invariant and the emitted indices form a strictly lexicographically
increasing chain. -/
theorem iterate_chain {T} : ∀ (fuel : Nat) (s : Combinations T), StInv s →
    (∀ s' ∈ (Combinations.iterate fuel s).1, StInv s' ∧ s'.first = false) ∧
    List.Chain' (fun a b => List.Lex (· < ·) a.indices b.indices)
      ((Combinations.iterate fuel s).1) := by
  intro fuel
  induction fuel with
  | zero =>
    intro s _
    exact ⟨by simp [Combinations.iterate], by simp [Combinations.iterate]⟩
  | succ fuel ih =>
    intro s hinv
    rcases hstep : s.step with ⟨e, s1⟩
    cases e
    · rw [iterate_succ_false hstep]
      exact ⟨by simp, by simp⟩
    · rw [iterate_succ_true hstep]
      obtain ⟨hfirst1, hinv1, _⟩ := step_true_app hinv hstep
      obtain ⟨ihmem, ihchain⟩ := ih s1 hinv1
      constructor
      · intro s' hs'
        rcases List.mem_cons.1 hs' with rfl | hs'
        · exact ⟨hinv1, hfirst1⟩
        · exact ihmem s' hs'
      · rw [List.chain'_cons']
        refine ⟨?_, ihchain⟩
        intro b hb
        have hstep2 := iterate_head hb
        exact (step_true_app hinv1 hstep2).2.2 hfirst1

/-! ## The claims -/

/-- C1 (code bug): the spec demands that for the empty input with `k = 1`
zero combinations are emitted, but the code emits exactly one combination,
`[undefined]`: `Take` pads the prefilled buffer with `undefined` instead of
stopping at exhaustion, so `k > n` is never detected.  This theorem evaluates
the code at the failing input. -/
theorem claim_C1 :
    emissionsElems 3 (ofList ([] : List Nat) 1) = [[none]] ∧
    (emissionsIdx 3 (ofList ([] : List Nat) 1)).length = 1 := by
  constructor <;> decide

/-- C2: for a finite input of length `n` and any `0 ≤ k ≤ n`, one full
traversal (any sufficient fuel) emits exactly `C(n, k)` combinations. -/
theorem claim_C2 {T : Type} (l : List T) (kk fuel : Nat)
    (h1 : kk ≤ l.length) (h2 : Nat.choose l.length kk < fuel) :
    (emissionsIdx fuel (ofList l kk)).length = Nat.choose l.length kk := by
  rcases Nat.eq_zero_or_pos kk with h0 | hpos
  · subst h0
    have hof : ofList l 0 = ⟨true, GPool l 0, List.range 0⟩ := by
      unfold ofList Combinations.make
      rw [Int.toNat_natCast, prefill_make_le (by omega)]
    rw [Nat.choose_zero_right] at h2 ⊢
    cases fuel with
    | zero => omega
    | succ fuel =>
      cases fuel with
      | zero => omega
      | succ fuel =>
        unfold emissionsIdx Combinations.traverse
        rw [show (ofList l 0).beginIter = ofList l 0 from by rw [hof]; rfl]
        rw [hof,
          iterate_succ_true
            (step_first_emit (by rw [GPool_length (by omega)]; simp)) _,
          iterate_succ_false (step_stop_n0 (GPool_length (by omega))) _]
        rfl
  · have h3 := traverse_combos l kk fuel hpos h1
      (by rw [combosOf_length, List.length_range]; exact h2)
    unfold emissionsIdx
    rw [show (((ofList l kk).traverse fuel).1).map (·.indices) =
      ((ofList l kk).traverse fuel).1.map Combinations.indices from rfl]
    rw [h3.1, combosOf_length, List.length_range]

/-- C2 witness: the theorem applied at `l = [10, 20, 30, 40]`, `k = 2`,
`fuel = 7`. -/
theorem claim_C2_witness :
    (2 ≤ ([10, 20, 30, 40] : List Nat).length ∧
      Nat.choose ([10, 20, 30, 40] : List Nat).length 2 < 7) ∧
    (emissionsIdx 7 (ofList ([10, 20, 30, 40] : List Nat) 2)).length =
      Nat.choose ([10, 20, 30, 40] : List Nat).length 2 :=
  ⟨⟨by decide, by decide⟩, claim_C2 [10, 20, 30, 40] 2 7 (by decide) (by decide)⟩

theorem make_StInv {T} (src : Nat → Option T) (k : Int) :
    StInv (Combinations.make src k) := by
  constructor
  · show List.Pairwise (· < ·) (List.range k.toNat)
    rw [List.range_eq_range']
    exact List.pairwise_lt_range' _ _
  · intro hnil
    show ((LazyBuffer.make src).prefill k).length = 0
    have hk0 : k.toNat = 0 := by
      have h2 : (List.range k.toNat).length = ([] : List Nat).length :=
        congrArg List.length hnil
      simpa using h2
    rw [prefill_nonpos (Int.toNat_eq_zero.1 hk0)]
    rfl

/-- C3: in any one traversal (any source, any `k`, any fuel), every emitted
index tuple is strictly increasing, each emitted tuple is strictly
lexicographically greater than the one before it, and hence no two emitted
tuples are equal. -/
theorem claim_C3 (T : Type) (src : Nat → Option T) (k : Int) (fuel : Nat) :
    (∀ cc ∈ emissionsIdx fuel (Combinations.make src k),
      List.Chain' (· < ·) cc) ∧
    List.Chain' (List.Lex (· < ·))
      (emissionsIdx fuel (Combinations.make src k)) ∧
    List.Pairwise (· ≠ ·) (emissionsIdx fuel (Combinations.make src k)) := by
  have hbg : (Combinations.make src k).beginIter = Combinations.make src k := rfl
  obtain ⟨hmem, hchain⟩ :=
    iterate_chain fuel (Combinations.make src k) (make_StInv src k)
  have hchain2 : List.Chain' (List.Lex (· < ·))
      (emissionsIdx fuel (Combinations.make src k)) := by
    unfold emissionsIdx
    rw [traverse_eq, hbg, List.chain'_map]
    exact hchain
  refine ⟨?_, hchain2, ?_⟩
  · intro cc hcc
    unfold emissionsIdx at hcc
    rw [traverse_eq, hbg] at hcc
    obtain ⟨s', hs', rfl⟩ := List.mem_map.1 hcc
    exact List.chain'_iff_pairwise.2 (hmem s' hs').1.1
  · haveI : IsTrans (List Nat) (List.Lex (· < ·)) := ⟨fun a b c => lex_trans⟩
    have hpw := List.chain'_iff_pairwise.1 hchain2
    exact hpw.imp (fun hl he => absurd (he ▸ hl) (lex_irrefl _))

/-- C4: for the input `[a, b, c, d]` with `k = 2`, one traversal emits exactly
the six index tuples `(0,1), (0,2), (0,3), (1,2), (1,3), (2,3)` in that
order (fuel 10 exceeds the traversal's seven loop iterations, so the list is
the complete traversal). -/
theorem claim_C4 {α : Type} (a b c d : α) :
    emissionsIdx 10 (ofList [a, b, c, d] 2) =
      [[0, 1], [0, 2], [0, 3], [1, 2], [1, 3], [2, 3]] := by
  have h := traverse_combos [a, b, c, d] 2 10
    (by omega) (by simp)
    (by simp only [List.length_cons, List.length_nil]; decide)
  unfold emissionsIdx
  rw [show (((ofList [a, b, c, d] 2).traverse 10).1).map (·.indices) =
    ((ofList [a, b, c, d] 2).traverse 10).1.map Combinations.indices from rfl]
  rw [h.1]
  simp only [List.length_cons, List.length_nil]
  decide

/-- C5 counterexample: with the infinite producer of the naturals and `k = 2`,
the first six emitted combinations are not `(0,1), (0,2), (0,3), (1,2), (1,3),
(2,3)` as claimed — lexicographic order over an unbounded index set never
leaves first index 0. -/
theorem claim_C5_counterexample :
    emissionsIdx 6 (Combinations.make natsSource 2) ≠
      [[0, 1], [0, 2], [0, 3], [1, 2], [1, 3], [2, 3]] := by decide

/-- C5 (amended): with the naturals producer and `k = 2`, the first six
combinations emitted are `(0,1), (0,2), (0,3), (0,4), (0,5), (0,6)`, and by
the time the sixth is emitted exactly 7 elements (indices 0..6) have been
pulled from the producer. -/
theorem claim_C5 :
    emissionsIdx 6 (Combinations.make natsSource 2) =
      [[0, 1], [0, 2], [0, 3], [0, 4], [0, 5], [0, 6]] ∧
    ((Combinations.make natsSource 2).traverse 6).2.pool.iterator.cursor = 7 := by
  constructor <;> decide

/-- C6 (code bug): the spec says `prefill(2)` over a one-element source
appends only the available element (leaving `length() = 1 < 2`) and marks the
buffer exhausted; the code instead pads the cache with `undefined` to length 2
and leaves `done = false`, because `Take` yields `next().value` without
checking `done`. -/
theorem claim_C6 :
    ((LazyBuffer.make (listSource [10])).prefill 2).buffer = [some 10, none] ∧
    ((LazyBuffer.make (listSource [10])).prefill 2).length = 2 ∧
    ((LazyBuffer.make (listSource [10])).prefill 2).done = false := by
  refine ⟨by decide, by decide, by decide⟩

theorem fetch_not_done_none {T} {b : LazyBuffer T} (h : b.done = false)
    (hs : b.iterator.source b.iterator.cursor = none) :
    b.fetch = ({ b with
      iterator := { source := b.iterator.source, cursor := b.iterator.cursor + 1 },
      done := true }, false) := by
  unfold LazyBuffer.fetch
  rw [if_neg (by simp [h])]
  simp only [IterState.next, hs]

theorem fetch_not_done_some {T} {b : LazyBuffer T} {v : T} (h : b.done = false)
    (hs : b.iterator.source b.iterator.cursor = some v) :
    b.fetch = ({ b with
      iterator := { source := b.iterator.source, cursor := b.iterator.cursor + 1 },
      buffer := b.buffer ++ [some v] }, true) := by
  unfold LazyBuffer.fetch
  rw [if_neg (by simp [h])]
  simp only [IterState.next, hs]

theorem applyOp_done {T} {b : LazyBuffer T} (h : b.done = true) (op : BufOp) :
    (applyOp b op).done = true := by
  cases op with
  | fetchOp => simp [applyOp, fetch_done h, h]
  | prefillOp k => simp [applyOp, prefill_done h k, h]

theorem applyOps_done {T} : ∀ (ops : List BufOp) (b : LazyBuffer T),
    b.done = true → (applyOps b ops).done = true := by
  intro ops
  induction ops with
  | nil => intro b h; exact h
  | cons op ops ih =>
    intro b h
    exact ih (applyOp b op) (applyOp_done h op)

theorem applyOp_buffer_grows {T} (b : LazyBuffer T) (op : BufOp) :
    b.buffer <+: (applyOp b op).buffer := by
  cases op with
  | fetchOp =>
    show b.buffer <+: ((b.fetch).1).buffer
    unfold LazyBuffer.fetch
    by_cases h : b.done = true
    · rw [if_pos h]
    · rw [if_neg h]
      cases hs : (b.iterator.next).1 <;> simp [hs]
  | prefillOp k =>
    show b.buffer <+: ((b.prefill k)).buffer
    unfold LazyBuffer.prefill
    by_cases h : ¬ b.done = true ∧ (b.length : Int) < k
    · rw [if_pos h]
      simp
    · rw [if_neg h]

theorem applyOps_buffer_grows {T} : ∀ (ops : List BufOp) (b : LazyBuffer T),
    b.buffer <+: (applyOps b ops).buffer := by
  intro ops
  induction ops with
  | nil => intro b; exact List.prefix_refl _
  | cons op ops ih =>
    intro b
    exact (applyOp_buffer_grows b op).trans (ih (applyOp b op))

/-- C8: `fetch` on an exhausted buffer returns `false` with no side effect;
otherwise it pulls one element from the source and either (source exhausted)
sets the `done` flag and returns `false`, or appends the element and returns
`true`.  The `done` flag, once set, survives any sequence of buffer
operations, and the cache only ever grows (the old cache is a prefix of the
new one) under any sequence of operations. -/
theorem claim_C8 (T : Type) (b : LazyBuffer T) (v : T) (ops : List BufOp) :
    (b.done = true → b.fetch = (b, false)) ∧
    (b.done = false → b.iterator.source b.iterator.cursor = none →
      b.fetch = ({ b with
        iterator := { source := b.iterator.source,
                      cursor := b.iterator.cursor + 1 },
        done := true }, false)) ∧
    (b.done = false → b.iterator.source b.iterator.cursor = some v →
      b.fetch = ({ b with
        iterator := { source := b.iterator.source,
                      cursor := b.iterator.cursor + 1 },
        buffer := b.buffer ++ [some v] }, true)) ∧
    (b.done = true → (applyOps b ops).done = true) ∧
    b.buffer <+: (applyOps b ops).buffer :=
  ⟨fetch_done, fun h hs => fetch_not_done_none h hs,
   fun h hs => fetch_not_done_some h hs,
   applyOps_done ops b, applyOps_buffer_grows ops b⟩

/-- C8 witness: the theorem's exhausted-`fetch` clause applied to a concrete
exhausted buffer. -/
theorem claim_C8_witness :
    (⟨⟨listSource ([] : List Nat), 1⟩, true, [some 0]⟩ : LazyBuffer Nat).fetch =
      ((⟨⟨listSource ([] : List Nat), 1⟩, true, [some 0]⟩ : LazyBuffer Nat),
        false) :=
  (claim_C8 Nat ⟨⟨listSource [], 1⟩, true, [some 0]⟩ 0 []).1 rfl

/-- C7: re-traversing the same instance after a full traversal yields the
identical emissions (element tuples and index tuples), leaves the object in
the identical final state — pool cache, `done` flag and source cursor
included, so the second traversal pulls nothing further from the source — and
the re-iteration reset only touches `first` and `indices`, keeping the pool as
it was. -/
theorem claim_C7 {T : Type} (l : List T) (kk fuel : Nat)
    (hfuel : Nat.choose l.length kk + 1 < fuel) :
    ((((ofList l kk).traverse fuel).2).traverse fuel).1.map Combinations.emit =
      ((ofList l kk).traverse fuel).1.map Combinations.emit ∧
    ((((ofList l kk).traverse fuel).2).traverse fuel).1.map
        Combinations.indices =
      ((ofList l kk).traverse fuel).1.map Combinations.indices ∧
    ((((ofList l kk).traverse fuel).2).traverse fuel).2 =
      ((ofList l kk).traverse fuel).2 ∧
    ((ofList l kk).traverse fuel).2.beginIter =
      ⟨true, ((ofList l kk).traverse fuel).2.pool, List.range kk⟩ := by
  rcases Nat.lt_or_ge l.length kk with hgt | hle
  · -- k exceeds the input: the padded seed is the only emission
    have hch : Nat.choose l.length kk = 0 := Nat.choose_eq_zero_of_lt hgt
    have hT1 := traverse_pad l kk fuel hgt (by omega)
    rw [hT1]
    have hbg : (⟨false, PadPoolDone l kk, List.range kk⟩ :
        Combinations T).beginIter = ⟨true, PadPoolDone l kk, List.range kk⟩ := by
      rw [beginIter_not_first, List.length_range,
        prefill_done (rfl : (PadPoolDone l kk).done = true)]
    have hT2 : (⟨false, PadPoolDone l kk, List.range kk⟩ :
        Combinations T).traverse fuel =
        ([⟨false, PadPoolDone l kk, List.range kk⟩],
          ⟨false, PadPoolDone l kk, List.range kk⟩) := by
      obtain ⟨f, rfl⟩ : ∃ f, fuel = f + 1 + 1 := ⟨fuel - 2, by omega⟩
      rw [traverse_eq, hbg]
      rw [iterate_succ_true (step_first_emit
        (by rw [List.length_range, PadPoolDone_length (by omega)]; simp)) _]
      rw [iterate_succ_false (step_pad2 hgt) _]
    rw [hT2]
    exact ⟨rfl, rfl, rfl, by rw [hbg]⟩
  · rcases Nat.eq_zero_or_pos kk with h0 | hpos
    · -- k = 0: one empty emission, stable state
      subst h0
      rw [Nat.choose_zero_right] at hfuel
      have hof : ofList l 0 = ⟨true, GPool l 0, List.range 0⟩ := by
        unfold ofList Combinations.make
        rw [Int.toNat_natCast, prefill_make_le (by omega)]
      have hT1 := traverse_k0 l fuel (by omega)
      rw [hT1]
      have hbg : (⟨false, GPool l 0, List.range 0⟩ :
          Combinations T).beginIter = ⟨true, GPool l 0, List.range 0⟩ := by
        rw [beginIter_not_first, List.length_range,
          prefill_nonpos (by omega)]
      have hT2 : (⟨false, GPool l 0, List.range 0⟩ :
          Combinations T).traverse fuel =
          ([⟨false, GPool l 0, List.range 0⟩],
            ⟨false, GPool l 0, List.range 0⟩) := by
        rw [traverse_eq, hbg, ← hof]
        have h2 := traverse_k0 l fuel (by omega)
        rw [traverse_eq,
          show (ofList l 0).beginIter = ofList l 0 from by rw [hof]; rfl] at h2
        exact h2
      rw [hT2]
      exact ⟨rfl, rfl, rfl, by rw [hbg]⟩
    · -- 1 ≤ k ≤ n: both traversals walk the full lexicographic orbit
      have hch : (combosOf (List.range l.length) kk).length =
          Nat.choose l.length kk := by
        rw [combosOf_length, List.length_range]
      obtain ⟨hmap1, hmap2, dd, hdd1, hdd2⟩ :=
        traverse_combos l kk fuel hpos hle (by omega)
      have hddlen : dd.length = kk :=
        combosOf_mem_length (List.mem_of_getLast?_eq_some hdd1)
      have hbg : ((ofList l kk).traverse fuel).2.beginIter =
          ⟨true, FPool l, List.range kk⟩ := by
        rw [hdd2, beginIter_not_first, hddlen,
          prefill_done (rfl : (FPool l).done = true)]
      have hfin : Finishes l.length (List.range kk)
          (combosOf (List.range l.length) kk) := by
        have h4 := orbit_combos (n := l.length) l.length 0 kk (by omega)
          (by omega)
        rw [consecFrom_zero_eq_range] at h4
        simpa [← List.range_eq_range'] using h4
      obtain ⟨t', ht'⟩ := hfin.head_eq
      cases fuel with
      | zero => omega
      | succ f =>
        have hT2head : Combinations.step ⟨true, FPool l, List.range kk⟩ =
            (true, ⟨false, FPool l, List.range kk⟩) :=
          step_first_emit (by rw [List.length_range, FPool_length]; omega)
        have hsim' : Sim l kk ⟨false, FPool l, List.range kk⟩
            (List.range kk) := ⟨rfl, rfl, by simp, hle, Or.inr rfl⟩
        obtain ⟨ih1, ih2, dd2, hdd21, hdd22⟩ := run_sim hpos hfin hsim'
          f (by omega)
        have hdd2eq : dd2 = dd := by
          rw [hdd1] at hdd21
          injection hdd21 with h5
          exact h5.symm
        have hT2full : (((ofList l kk).traverse (f + 1)).2).traverse (f + 1) =
            (⟨false, FPool l, List.range kk⟩ ::
              (Combinations.iterate f ⟨false, FPool l, List.range kk⟩).1,
             (Combinations.iterate f ⟨false, FPool l, List.range kk⟩).2) := by
          rw [traverse_eq, hbg, iterate_succ_true hT2head]
        refine ⟨?_, ?_, ?_, ?_⟩
        · rw [hT2full, hmap2]
          simp only [List.map_cons, ih2, Sim_emit hpos hsim', ht',
            List.tail_cons, List.map_cons]
        · rw [hT2full, hmap1]
          simp only [List.map_cons, ih1, ht', List.tail_cons]
        · rw [hT2full, hdd22, hdd2eq, hdd2]
        · rw [hbg, hdd2]

/-- C7 witness: the theorem at `l = [10, 20]`, `k = 1`, `fuel = 5`. -/
theorem claim_C7_witness :
    Nat.choose ([10, 20] : List Nat).length 1 + 1 < 5 ∧
    (((((ofList ([10, 20] : List Nat) 1).traverse 5).2).traverse 5).1.map
        Combinations.emit =
      ((ofList ([10, 20] : List Nat) 1).traverse 5).1.map Combinations.emit ∧
    (((((ofList ([10, 20] : List Nat) 1).traverse 5).2).traverse 5).1).map
        Combinations.indices =
      ((ofList ([10, 20] : List Nat) 1).traverse 5).1.map
        Combinations.indices ∧
    ((((ofList ([10, 20] : List Nat) 1).traverse 5).2).traverse 5).2 =
      ((ofList ([10, 20] : List Nat) 1).traverse 5).2 ∧
    ((ofList ([10, 20] : List Nat) 1).traverse 5).2.beginIter =
      ⟨true, ((ofList ([10, 20] : List Nat) 1).traverse 5).2.pool,
        List.range 1⟩) :=
  ⟨by decide, claim_C7 [10, 20] 1 5 (by decide)⟩

/-- C9 counterexample: constructing with `k = -1` is not rejected — it
produces the same state as `k = 0` (the `Range(0,k)` seed is empty) and
enumerates one empty combination. -/
theorem claim_C9_counterexample :
    Combinations.make (listSource [true]) (-1) =
      Combinations.make (listSource [true]) 0 ∧
    emissionsIdx 2 (Combinations.make (listSource [true]) (-1)) = [[]] := by
  constructor
  · rfl
  · decide

/-- C9 (amended): a negative `k` is silently accepted at construction: the
resulting enumerator state is identical to the one for `k = 0`. -/
theorem claim_C9 {T : Type} (src : Nat → Option T) (k : Int) (hk : k < 0) :
    Combinations.make src k = Combinations.make src 0 := by
  unfold Combinations.make LazyBuffer.prefill
  have h1 : k.toNat = 0 := Int.toNat_of_nonpos (by omega)
  rw [if_neg (by simp [LazyBuffer.make, LazyBuffer.length]; omega)]
  rw [if_neg (by simp [LazyBuffer.make, LazyBuffer.length])]
  rw [h1]
  simp

/-- C9 witness: the amended theorem at `k = -2` over an empty source. -/
theorem claim_C9_witness :
    Combinations.make (listSource ([] : List Nat)) (-2) =
      Combinations.make (listSource ([] : List Nat)) 0 :=
  claim_C9 (listSource []) (-2) (by decide)

/-- C10 counterexample: `get` with an out-of-range index does not abort — it
silently returns `undefined` (the JS out-of-bounds array read). -/
theorem claim_C10_counterexample :
    ((LazyBuffer.make (listSource [5, 6])).prefill 2).get 7 = none := by decide

/-- C10 (amended): `get(index)` with `length() ≤ index` silently returns
`undefined` (`none`), never aborting. -/
theorem claim_C10 {T : Type} (b : LazyBuffer T) (idx : Nat)
    (h : b.length ≤ idx) :
    b.get idx = none := by
  unfold LazyBuffer.get
  rw [List.getD_eq_getElem?_getD, List.getElem?_eq_none h]
  rfl

/-- C10 witness: the amended theorem at a concrete two-element buffer and
index 3. -/
theorem claim_C10_witness :
    (⟨⟨listSource ([] : List Nat), 0⟩, false,
        [some 1, none]⟩ : LazyBuffer Nat).length ≤ 3 ∧
    (⟨⟨listSource ([] : List Nat), 0⟩, false,
        [some 1, none]⟩ : LazyBuffer Nat).get 3 = none :=
  ⟨by decide, claim_C10 _ 3 (by decide)⟩

end StupidIter
